import Mathlib

/-!
Verification of the answer-similarity scoring engine of `checkSimilarity`
(`api/compare.ts` / `server.js`): text normalization, the Jaro-Winkler
lexical similarity, and the score combiner / HTTP handler decision logic.

Strings are embedded as `List Char`; JavaScript floating-point numbers are
embedded as exact rationals `ℚ` (the score arithmetic of the source —
divisions, the fixed weights 0.8/0.2 and the Winkler 0.1 factor — is modelled
exactly; statements about floats hold "up to rounding" in the usual sense).
-/

namespace CheckSim

/-- ASCII whitespace, the characters matched by the source's `trim` and the
regex class `\s` on ASCII input: space, tab, newline, carriage return,
vertical tab, form feed. -/
def isWS (c : Char) : Bool :=
  c = ' ' || c = '\t' || c = '\n' || c = '\r' || c = '\x0b' || c = '\x0c'

/-- `text.trim()` of the source: drop leading and trailing whitespace. -/
def trim (l : List Char) : List Char :=
  ((l.dropWhile isWS).reverse.dropWhile isWS).reverse

/-- The regex replace `.replace(/\s+/g, ' ')` of the source: every maximal
run of whitespace characters becomes a single `' '` (emitted at the end of
the run). Structural one-character-lookahead formulation. -/
def collapseWS : List Char → List Char
  | [] => []
  | c :: rest =>
    if isWS c then
      match rest with
      | d :: _ => if isWS d then collapseWS rest else ' ' :: collapseWS rest
      | [] => [' ']
    else c :: collapseWS rest

/-- `normalize` of `api/compare.ts` lines 69-71:
`text.trim().replace(/\s+/g, ' ')`. -/
def normalize (l : List Char) : List Char :=
  collapseWS (trim l)

/-- Spec-side: the whitespace-separated words of a string, in order,
empty words dropped. -/
def wordsWS : List Char → List (List Char)
  | [] => []
  | c :: rest =>
    if isWS c then wordsWS rest
    else (c :: rest.takeWhile (fun d => !isWS d)) ::
      wordsWS (rest.dropWhile (fun d => !isWS d))
termination_by l => l.length
decreasing_by
  · simp only [List.length_cons]
    omega
  · simp only [List.length_cons]
    exact Nat.lt_succ_of_le (List.dropWhile_suffix _).length_le

/-- Spec-side: join words with single spaces. -/
def joinWords : List (List Char) → List Char
  | [] => []
  | [w] => w
  | w :: ws => w ++ ' ' :: joinWords ws

/-- The right-trim half of `trim`: drop the trailing whitespace run. -/
def trimRight (l : List Char) : List Char :=
  (l.reverse.dropWhile isWS).reverse

/-- Whether the string contains at least one non-whitespace character. -/
def hasContent (l : List Char) : Bool :=
  l.any (fun c => !isWS c)

/-! ## The Jaro-Winkler algorithm (`jaroWinkler`, `api/compare.ts` lines 20-66) -/

/-- `const matchWindow = Math.floor(Math.max(m, n) / 2) - 1;` — may be `-1`
for very short strings, hence `Int`. -/
def matchWindow (m n : Nat) : Int :=
  ((max m n / 2 : Nat) : Int) - 1

/-- `const start = Math.max(0, i - matchWindow);` -/
def scanStart (w : Int) (i : Nat) : Nat :=
  ((i : Int) - w).toNat

/-- `const end = Math.min(i + matchWindow + 1, n);` (clamped to `0` from
below by `Int.toNat`; the value is never negative since `w ≥ -1`). -/
def scanStop (w : Int) (i : Nat) (n : Nat) : Nat :=
  (min ((i : Int) + w + 1) (n : Int)).toNat

/-- The inner loop of the matching pass: the first index `j` in
`[start, stop)` with `s2Matches[j]` unset and `s2[j] = c`
(`if (s2Matches[j] || s1[i] !== s2[j]) continue; ... break;`). -/
def findMatch (c : Char) (s2 : List Char) (s2M : List Bool)
    (start stop : Nat) : Option Nat :=
  (List.range' start (stop - start)).find?
    (fun j => decide (s2M.get? j = some false ∧ s2.get? j = some c))

/-- State of the matching pass: the two flag arrays and the match counter `mcount` (`matches` in the source, a reserved word here). -/
structure MState where
  s1M : List Bool
  s2M : List Bool
  mcount : Nat
deriving Repr, DecidableEq

/-- One iteration of the outer matching loop, at position `i` of `s1`. -/
def matchStep (s1 s2 : List Char) (w : Int) (st : MState) (i : Nat) : MState :=
  match findMatch (s1.getD i ' ') s2 st.s2M (scanStart w i)
      (scanStop w i s2.length) with
  | some j => ⟨st.s1M.set i true, st.s2M.set j true, st.mcount + 1⟩
  | none => st

/-- The full matching pass: the `for (let i = 0; i < m; i++)` loop, starting
from all-false flag arrays and `matches = 0`. -/
def matchPass (s1 s2 : List Char) : MState :=
  (List.range s1.length).foldl
    (matchStep s1 s2 (matchWindow s1.length s2.length))
    ⟨List.replicate s1.length false, List.replicate s2.length false, 0⟩

/-- `while (!s2Matches[k]) k++;` — the first index `≥ k` whose flag is set.
`none` models the situation where the JavaScript loop would run past the end
of the array and never terminate (proved unreachable below). Fuel-structural
with fuel `s2M.length - k`. -/
def nextTrueAux (s2M : List Bool) : Nat → Nat → Option Nat
  | 0, _ => none
  | fuel + 1, k => if s2M.getD k false then some k else nextTrueAux s2M fuel (k + 1)

def nextTrue (s2M : List Bool) (k : Nat) : Option Nat :=
  nextTrueAux s2M (s2M.length - k) k

/-- The transposition-counting pass (`api/compare.ts` lines 49-55): walk the
indices `is` of `s1`; at each matched position advance the pointer `k` to the
next set flag of `s2M`, compare characters, count mismatches in `t`. -/
def transLoop (s1 s2 : List Char) (s1M s2M : List Bool) :
    List Nat → Nat → Nat → Option Nat
  | [], _, t => some t
  | i :: is, k, t =>
    if s1M.getD i false then
      match nextTrue s2M k with
      | none => none
      | some k2 =>
        transLoop s1 s2 s1M s2M is (k2 + 1)
          (if s1.get? i = s2.get? k2 then t else t + 1)
    else transLoop s1 s2 s1M s2M is k t

/-- The common-prefix length, capped at `fuel` (called with `4`):
`for (let i = 0; i < Math.min(m, n, 4); i++) { if (s1[i] === s2[i]) prefix++;
else break; }`. -/
def prefLen : List Char → List Char → Nat → Nat
  | a :: as, b :: bs, fuel + 1 => if a = b then prefLen as bs fuel + 1 else 0
  | _, _, _ => 0

/-- `jaroWinkler(s1, s2)` of `api/compare.ts` lines 20-66, over exact
rationals. The `.getD 0` on the transposition count covers the `none` case of
`transLoop`, which models a diverging JavaScript loop and is proved
unreachable (`transLoop_total`). -/
def jaroWinkler (s1 s2 : List Char) : ℚ :=
  let m := s1.length
  let n := s2.length
  if m = 0 ∧ n = 0 then 1
  else if m = 0 ∨ n = 0 then 0
  else
    let st := matchPass s1 s2
    if st.mcount = 0 then 0
    else
      let t : ℚ := ((transLoop s1 s2 st.s1M st.s2M (List.range m) 0 0).getD 0 : Nat)
      let jaro : ℚ :=
        ((st.mcount : ℚ) / (m : ℚ) + (st.mcount : ℚ) / (n : ℚ) +
          ((st.mcount : ℚ) - t / 2) / (st.mcount : ℚ)) / 3
      jaro + (prefLen s1 s2 4 : ℚ) * (1 / 10) * (1 - jaro)

/-! ## The handler (`api/compare.ts` lines 73-160) -/

/-- The `scores` object of a successful response. `exact` is present (`some`)
only on the exact-match fast path. -/
structure ScoreSet where
  exact : Option ℚ
  semantic : ℚ
  jaroWinkler : ℚ
  combined : ℚ
deriving Repr, DecidableEq

/-- A successful (HTTP 200) response body. `threshold` is `none` when the
response carries no `threshold` field. -/
structure Response where
  isCorrect : Bool
  confidence : ℚ
  scores : ScoreSet
  threshold : Option ℚ
deriving Repr, DecidableEq

/-- Outcome of a POST request: the 400 "Both userAnswer and correctAnswer are
required" rejection, or a 200 response. -/
inductive HResult where
  | missingInput
  | ok (r : Response)
deriving Repr, DecidableEq

/-- The body of `handler` for a POST request (`api/compare.ts` lines 91-150).
`sem` is the embedding provider (model + cosine similarity) as an oracle on
the two normalized strings; the `Bool` component records whether the provider
was invoked. The guard `if (!userAnswer || !correctAnswer)` is JavaScript
falsiness: for strings it rejects exactly the empty string, before any
trimming. -/
def handler (sem : List Char → List Char → ℚ)
    (userAnswer correctAnswer : List Char) (threshold : ℚ) : HResult × Bool :=
  if userAnswer = [] ∨ correctAnswer = [] then (.missingInput, false)
  else
    let nu := normalize userAnswer
    let nc := normalize correctAnswer
    if nu.map Char.toLower = nc.map Char.toLower then
      (.ok ⟨true, 1, ⟨some 1, 1, 1, 1⟩, none⟩, false)
    else
      let s := sem nu nc
      let j := jaroWinkler (nu.map Char.toLower) (nc.map Char.toLower)
      let c := s * (8 / 10) + j * (2 / 10)
      (.ok ⟨decide (threshold ≤ c), c, ⟨none, s, j, c⟩, some threshold⟩, true)

/-- Invariant of the matching pass: flag-array lengths are those of the two
strings, and both flag arrays have exactly `mcount` set entries. -/
def Good (st : MState) (m n : Nat) : Prop :=
  st.s1M.length = m ∧ st.s2M.length = n ∧
    st.s1M.count true = st.mcount ∧ st.s2M.count true = st.mcount

/-- The number of set flags among the positions `is`. -/
def cntF (s1M : List Bool) (is : List Nat) : Nat :=
  (is.filter (fun i => s1M[i]?.getD false)).length

/-- The matching pass as a list of claimed pairs `(i, j)` in processing
order, with the same inner scan (`findMatch`) and the same claimed-flag
state as `matchPass`. -/
def gpairsAux (s1 s2 : List Char) (w : Int) : List Nat → List Bool → List (Nat × Nat)
  | [], _ => []
  | i :: is, s2M =>
    match findMatch (s1.getD i ' ') s2 s2M (scanStart w i) (scanStop w i s2.length) with
    | some j => (i, j) :: gpairsAux s1 s2 w is (s2M.set j true)
    | none => gpairsAux s1 s2 w is s2M

def gpairs (s1 s2 : List Char) : List (Nat × Nat) :=
  gpairsAux s1 s2 (matchWindow s1.length s2.length) (List.range s1.length)
    (List.replicate s2.length false)

/-- Set the flags at the given positions. -/
def setTrues (l : List Bool) (ids : List Nat) : List Bool :=
  ids.foldl (fun l2 i => l2.set i true) l

/-- Positions `i` of `s1` and `j` of `s2` are compatible: in bounds, equal
characters, and `j` inside the clamped scan window of `i`. -/
def Compat (s1 s2 : List Char) (w : Int) (i j : Nat) : Prop :=
  i < s1.length ∧ j < s2.length ∧ s1.getD i ' ' = s2.getD j ' ' ∧
    scanStart w i ≤ j ∧ j < scanStop w i s2.length

/-- Fuel-indexed characterization of the pairs claimed by the greedy
first-fit matching: `(i, j)` is claimed iff it is compatible, every smaller
compatible `j'` is claimed by an earlier `i'`, and every earlier compatible
`i'` claimed some smaller `j'`. Recursive occurrences are at pairs of
strictly smaller index sum, so fuel `N ≥ i + j` suffices. -/
def MatchedN (s1 s2 : List Char) (w : Int) : Nat → Nat → Nat → Prop
  | 0, i, j => Compat s1 s2 w i j
  | N + 1, i, j =>
    Compat s1 s2 w i j ∧
      (∀ j' < j, Compat s1 s2 w i j' → ∃ i' < i, MatchedN s1 s2 w N i' j') ∧
      (∀ i' < i, Compat s1 s2 w i' j → ∃ j' < j, MatchedN s1 s2 w N i' j')

def Matched (s1 s2 : List Char) (w : Int) (i j : Nat) : Prop :=
  MatchedN s1 s2 w (i + j) i j

/-- The characters of `s` at the flagged positions, in order. -/
def maskChars : List Char → List Bool → List Char
  | c :: cs, true :: M => c :: maskChars cs M
  | _ :: cs, false :: M => maskChars cs M
  | _, _ => []

/-- The number of positions where the two lists differ (up to the shorter
length). -/
def hamming : List Char → List Char → Nat
  | a :: as, b :: bs => (if a = b then 0 else 1) + hamming as bs
  | _, _ => 0

/-! ## Normalization: trimming and whitespace collapsing (C9) -/

theorem hasContent_false_iff {l : List Char} :
    hasContent l = false ↔ ∀ x ∈ l, isWS x = true := by
  simp [hasContent, List.any_eq_false]

theorem trimRight_allWS {l : List Char} (h : ∀ x ∈ l, isWS x = true) :
    trimRight l = [] := by
  unfold trimRight
  rw [List.dropWhile_eq_nil_iff.mpr (fun x hx => h x (List.mem_reverse.mp hx))]
  rfl

theorem dropWhile_reverse_ne_nil {l : List Char} (h : hasContent l = true) :
    l.reverse.dropWhile isWS ≠ [] := by
  intro hnil
  rw [List.dropWhile_eq_nil_iff] at hnil
  obtain ⟨x, hx, hxp⟩ := List.any_eq_true.mp h
  simp only [Bool.not_eq_true'] at hxp
  rw [hnil x (List.mem_reverse.mpr hx)] at hxp
  cases hxp

theorem trimRight_cons {c : Char} {l : List Char}
    (h : isWS c = false ∨ hasContent l = true) :
    trimRight (c :: l) = c :: trimRight l := by
  unfold trimRight
  rw [List.reverse_cons, List.dropWhile_append]
  by_cases hcont : hasContent l = true
  · have hne := dropWhile_reverse_ne_nil hcont
    rw [if_neg (by simpa [List.isEmpty_iff] using hne)]
    simp
  · have hc : isWS c = false := h.resolve_right hcont
    have hF : hasContent l = false := by revert hcont; cases hasContent l <;> simp
    have hall := hasContent_false_iff.mp hF
    rw [List.dropWhile_eq_nil_iff.mpr (fun x hx => hall x (List.mem_reverse.mp hx))]
    simp [List.dropWhile_cons, hc]

theorem trimRight_append_nonWS {w t : List Char}
    (h : ∀ x ∈ w, isWS x = false) :
    trimRight (w ++ t) = w ++ trimRight t := by
  induction w with
  | nil => simp
  | cons c w2 ih =>
    rw [List.cons_append, trimRight_cons (Or.inl (h c (by simp)))]
    rw [ih (fun x hx => h x (by simp [hx]))]
    rfl

theorem collapseWS_append_nonWS {w z : List Char}
    (h : ∀ x ∈ w, isWS x = false) :
    collapseWS (w ++ z) = w ++ collapseWS z := by
  induction w with
  | nil => rfl
  | cons c w2 ih =>
    rw [List.cons_append]
    have hc : isWS c = false := h c (by simp)
    rw [show collapseWS (c :: (w2 ++ z)) = c :: collapseWS (w2 ++ z) from by
      simp [collapseWS, hc]]
    rw [ih (fun x hx => h x (by simp [hx]))]
    rfl

theorem collapseWS_trimRight_wsHead :
    ∀ (l : List Char) (d : Char), isWS d = true → hasContent l = true →
      collapseWS (trimRight (d :: l)) =
        ' ' :: collapseWS (trimRight (l.dropWhile isWS)) := by
  intro l
  induction l with
  | nil => intro d _ hcont; simp [hasContent] at hcont
  | cons e l2 ih =>
    intro d hd hcont
    rw [trimRight_cons (Or.inr hcont)]
    by_cases he : isWS e = true
    · have hcont2 : hasContent l2 = true := by
        simpa [hasContent, he] using hcont
      rw [show (e :: l2).dropWhile isWS = l2.dropWhile isWS from by
        simp [List.dropWhile_cons, he]]
      rw [trimRight_cons (Or.inr hcont2)]
      have hstep : collapseWS (d :: e :: trimRight l2) =
          collapseWS (e :: trimRight l2) := by
        simp [collapseWS, hd, he]
      rw [hstep, ← trimRight_cons (Or.inr hcont2)]
      exact ih e he hcont2
    · have he2 : isWS e = false := by revert he; cases isWS e <;> simp
      rw [show (e :: l2).dropWhile isWS = e :: l2 from by
        simp [List.dropWhile_cons, he2]]
      rw [trimRight_cons (Or.inl he2)]
      simp [collapseWS, hd, he2]

theorem wordsWS_dropWhile (l : List Char) :
    wordsWS (l.dropWhile isWS) = wordsWS l := by
  induction l with
  | nil => rfl
  | cons c rest ih =>
    by_cases hc : isWS c = true
    · rw [show (c :: rest).dropWhile isWS = rest.dropWhile isWS from by
        simp [List.dropWhile_cons, hc]]
      rw [ih, show wordsWS (c :: rest) = wordsWS rest from by simp [wordsWS, hc]]
    · have hc2 : isWS c = false := by revert hc; cases isWS c <;> simp
      rw [show (c :: rest).dropWhile isWS = c :: rest from by
        simp [List.dropWhile_cons, hc2]]

theorem wordsWS_allWS {l : List Char} (h : ∀ x ∈ l, isWS x = true) :
    wordsWS l = [] := by
  induction l with
  | nil => simp [wordsWS]
  | cons c rest ih =>
    rw [show wordsWS (c :: rest) = wordsWS rest from by
      simp [wordsWS, h c (by simp)]]
    exact ih (fun x hx => h x (by simp [hx]))

theorem wordsWS_ne_nil {l : List Char} (h : hasContent l = true) :
    wordsWS l ≠ [] := by
  induction l with
  | nil => simp [hasContent] at h
  | cons c rest ih =>
    by_cases hc : isWS c = true
    · have hcont : hasContent rest = true := by simpa [hasContent, hc] using h
      rw [show wordsWS (c :: rest) = wordsWS rest from by simp [wordsWS, hc]]
      exact ih hcont
    · have hc2 : isWS c = false := by revert hc; cases isWS c <;> simp
      simp [wordsWS, hc2]

theorem collapse_trimRight_spec :
    ∀ (n : Nat) (l : List Char), l.length ≤ n →
      (∀ c, l.head? = some c → isWS c = false) →
      collapseWS (trimRight l) = joinWords (wordsWS l) := by
  intro n
  induction n with
  | zero =>
    intro l hl _
    have : l = [] := List.eq_nil_of_length_eq_zero (Nat.le_zero.mp hl)
    subst this
    simp [wordsWS, joinWords, trimRight, collapseWS]
  | succ n ih =>
    intro l hl hhead
    cases l with
    | nil => simp [wordsWS, joinWords, trimRight, collapseWS]
    | cons c rest =>
      have hc : isWS c = false := hhead c rfl
      have hW : wordsWS (c :: rest) =
          (c :: rest.takeWhile (fun d => !isWS d)) ::
            wordsWS (rest.dropWhile (fun d => !isWS d)) := by
        simp [wordsWS, hc]
      have hword : ∀ x ∈ c :: rest.takeWhile (fun d => !isWS d), isWS x = false := by
        intro x hx
        rcases List.mem_cons.mp hx with rfl | hx2
        · exact hc
        · have := List.mem_takeWhile_imp hx2
          simpa using this
      have hdecomp : c :: rest =
          (c :: rest.takeWhile (fun d => !isWS d)) ++
            rest.dropWhile (fun d => !isWS d) := by
        rw [List.cons_append, List.takeWhile_append_dropWhile]
      by_cases hcont : hasContent (rest.dropWhile (fun d => !isWS d)) = true
      · cases htl : rest.dropWhile (fun d => !isWS d) with
        | nil => rw [htl] at hcont; simp [hasContent] at hcont
        | cons d t2 =>
          have hdWS : isWS d = true := by
            have hh := List.head?_dropWhile_not (fun d => !isWS d) rest
            rw [htl] at hh
            simpa using hh
          have hcont2 : hasContent t2 = true := by
            rw [htl] at hcont
            simpa [hasContent, hdWS] using hcont
          have hwt : wordsWS (rest.dropWhile (fun d => !isWS d)) = wordsWS t2 := by
            rw [htl, show wordsWS (d :: t2) = wordsWS t2 from by simp [wordsWS, hdWS]]
          have hne : wordsWS t2 ≠ [] := wordsWS_ne_nil hcont2
          have hlen : (t2.dropWhile isWS).length ≤ n := by
            have h1 : (t2.dropWhile isWS).length ≤ t2.length :=
              (List.dropWhile_suffix _).length_le
            have h2 : (rest.dropWhile (fun d => !isWS d)).length ≤ rest.length :=
              (List.dropWhile_suffix _).length_le
            rw [htl] at h2
            simp only [List.length_cons] at h2 hl
            omega
          have hhead2 : ∀ e, (t2.dropWhile isWS).head? = some e → isWS e = false := by
            intro e he
            have hh := List.head?_dropWhile_not isWS t2
            rw [he] at hh
            exact hh
          rw [show collapseWS (trimRight (c :: rest)) =
              collapseWS (trimRight ((c :: rest.takeWhile (fun d => !isWS d)) ++
                rest.dropWhile (fun d => !isWS d))) from by rw [← hdecomp]]
          rw [trimRight_append_nonWS hword, collapseWS_append_nonWS hword]
          rw [htl, collapseWS_trimRight_wsHead t2 d hdWS hcont2]
          rw [ih (t2.dropWhile isWS) hlen hhead2, wordsWS_dropWhile t2]
          rw [hW, hwt]
          cases hws : wordsWS t2 with
          | nil => exact absurd hws hne
          | cons w2 ws2 => simp [joinWords]
      · have hF : hasContent (rest.dropWhile (fun d => !isWS d)) = false := by
          revert hcont; cases hasContent (rest.dropWhile (fun d => !isWS d)) <;> simp
        have hallWS := hasContent_false_iff.mp hF
        rw [show collapseWS (trimRight (c :: rest)) =
            collapseWS (trimRight ((c :: rest.takeWhile (fun d => !isWS d)) ++
              rest.dropWhile (fun d => !isWS d))) from by rw [← hdecomp]]
        rw [trimRight_append_nonWS hword, trimRight_allWS hallWS, List.append_nil]
        rw [hW, wordsWS_allWS hallWS]
        have hcw := @collapseWS_append_nonWS
          (c :: rest.takeWhile (fun d => !isWS d)) [] hword
        rw [List.append_nil] at hcw
        rw [hcw]
        simp [joinWords, collapseWS]

/-! ## Claim theorem: C9 -/

/-- Claim C9: `normalize` removes leading and trailing whitespace and
replaces every maximal internal whitespace run by a single space — it equals
joining the whitespace-separated words of the input with single spaces. As a
pure function on lists of characters it preserves the order and case of every
non-whitespace character. -/
theorem normalize_eq_joinWords_wordsWS (l : List Char) :
    normalize l = joinWords (wordsWS l) := by
  have h0 : normalize l = collapseWS (trimRight (l.dropWhile isWS)) := rfl
  have hhead : ∀ c, (l.dropWhile isWS).head? = some c → isWS c = false := by
    intro c hc
    have hh := List.head?_dropWhile_not isWS l
    rw [hc] at hh
    exact hh
  rw [h0, collapse_trimRight_spec (l.dropWhile isWS).length _ le_rfl hhead,
    wordsWS_dropWhile]

end CheckSim

namespace CheckSim

/-! ## Facts about the matching pass -/

theorem findMatch_some {c : Char} {s2 : List Char} {s2M : List Bool}
    {start stop j : Nat} (h : findMatch c s2 s2M start stop = some j) :
    start ≤ j ∧ j < stop ∧ s2M.get? j = some false ∧ s2.get? j = some c := by
  have hp := List.find?_some h
  have hm := List.mem_of_find?_eq_some h
  rw [List.mem_range'_1] at hm
  simp only [decide_eq_true_eq] at hp
  exact ⟨hm.1, by omega, hp.1, hp.2⟩

theorem count_true_set {l : List Bool} {i : Nat} (h : l.get? i = some false) :
    (l.set i true).count true = l.count true + 1 := by
  rw [List.get?_eq_getElem?] at h
  have hi : i < l.length := by
    by_contra hn
    rw [List.getElem?_eq_none (by omega)] at h
    cases h
  have hv : l[i] = false := by
    rw [List.getElem?_eq_getElem hi] at h
    exact Option.some.inj h
  rw [List.count_set _ _ _ _ hi]
  simp [hv]

theorem matchFold_good {s1 s2 : List Char} {w : Int} {m n : Nat} :
    ∀ (is : List Nat) (st : MState), is.Nodup →
      (∀ i ∈ is, st.s1M.get? i = some false) →
      Good st m n → Good (is.foldl (matchStep s1 s2 w) st) m n := by
  intro is
  induction is with
  | nil => intro st _ _ hg; exact hg
  | cons i is ih =>
    intro st hnd hflag hg
    obtain ⟨hl1, hl2, hc1, hc2⟩ := hg
    rw [List.foldl_cons]
    have hfi : st.s1M.get? i = some false := hflag i (by simp)
    rcases hfm : findMatch (s1.getD i ' ') s2 st.s2M (scanStart w i)
        (scanStop w i s2.length) with _ | j
    · have hstep : matchStep s1 s2 w st i = st := by
        unfold matchStep; rw [hfm]
      rw [hstep]
      exact ih st hnd.of_cons (fun i' hi' => hflag i' (by simp [hi'])) ⟨hl1, hl2, hc1, hc2⟩
    · obtain ⟨_, _, hj2, _⟩ := findMatch_some hfm
      have hstep : matchStep s1 s2 w st i =
          ⟨st.s1M.set i true, st.s2M.set j true, st.mcount + 1⟩ := by
        unfold matchStep; rw [hfm]
      rw [hstep]
      apply ih
      · exact hnd.of_cons
      · intro i' hi'
        have hne : i ≠ i' := by
          rintro rfl
          exact (List.nodup_cons.mp hnd).1 hi'
        simp only [List.get?_eq_getElem?, List.getElem?_set_ne hne]
        rw [← List.get?_eq_getElem?]
        exact hflag i' (by simp [hi'])
      · refine ⟨by simpa using hl1, by simpa using hl2, ?_, ?_⟩
        · rw [count_true_set hfi, hc1]
        · rw [count_true_set hj2, hc2]

theorem matchPass_good (s1 s2 : List Char) :
    Good (matchPass s1 s2) s1.length s2.length := by
  apply matchFold_good _ _ (List.nodup_range _)
  · intro i hi
    rw [List.mem_range] at hi
    simp [List.get?_eq_getElem?, List.getElem?_replicate, hi]
  · exact ⟨by simp, by simp, by simp [List.count_replicate], by simp [List.count_replicate]⟩

/-! ## Facts about the transposition pass -/

theorem nextTrueAux_spec {s2M : List Bool} :
    ∀ (fuel k : Nat), k + fuel = s2M.length →
      0 < (s2M.drop k).count true →
      ∃ k2, nextTrueAux s2M fuel k = some k2 ∧ k ≤ k2 ∧
        s2M.get? k2 = some true ∧
        (s2M.drop (k2 + 1)).count true + 1 = (s2M.drop k).count true := by
  intro fuel
  induction fuel with
  | zero =>
    intro k hk hc
    rw [List.drop_eq_nil_of_le (by omega)] at hc
    simp at hc
  | succ f ih =>
    intro k hk hc
    have hkl : k < s2M.length := by omega
    have hdrop := List.drop_eq_getElem_cons hkl
    have hval : s2M[k]?.getD false = s2M[k] := by
      rw [List.getElem?_eq_getElem hkl]
      rfl
    rcases hB : s2M[k] with _ | _
    · have hstep : nextTrueAux s2M (f + 1) k = nextTrueAux s2M f (k + 1) := by
        simp [nextTrueAux, hval, hB]
      have hcnt : (s2M.drop (k + 1)).count true = (s2M.drop k).count true := by
        rw [hdrop, hB]
        simp [List.count_cons]
      obtain ⟨k2, h1, h2, h3, h4⟩ := ih (k + 1) (by omega) (by omega)
      exact ⟨k2, by rw [hstep]; exact h1, by omega, h3, by omega⟩
    · refine ⟨k, ?_, le_refl k, ?_, ?_⟩
      · simp [nextTrueAux, hval, hB]
      · rw [List.get?_eq_getElem?, List.getElem?_eq_getElem hkl, hB]
      · rw [hdrop, hB]
        simp [List.count_cons]

theorem nextTrue_spec {s2M : List Bool} {k : Nat}
    (hc : 0 < (s2M.drop k).count true) :
    ∃ k2, nextTrue s2M k = some k2 ∧ k ≤ k2 ∧ s2M.get? k2 = some true ∧
      (s2M.drop (k2 + 1)).count true + 1 = (s2M.drop k).count true := by
  have hk : k ≤ s2M.length := by
    by_contra hn
    rw [List.drop_eq_nil_of_le (by omega)] at hc
    simp at hc
  exact nextTrueAux_spec (s2M.length - k) k (by omega) hc

theorem transLoop_spec {s1 s2 : List Char} {s1M s2M : List Bool} :
    ∀ (is : List Nat) (k t : Nat),
      cntF s1M is ≤ (s2M.drop k).count true →
      ∃ t2, transLoop s1 s2 s1M s2M is k t = some t2 ∧ t2 ≤ t + cntF s1M is := by
  intro is
  induction is with
  | nil => intro k t _; exact ⟨t, rfl, by simp [cntF]⟩
  | cons i is ih =>
    intro k t h
    rcases hf : s1M[i]?.getD false with _ | _
    · have hcnt : cntF s1M (i :: is) = cntF s1M is := by
        simp only [cntF, List.filter_cons, hf]
        simp
      rw [hcnt] at h
      obtain ⟨t2, ht2, hb⟩ := ih k t h
      refine ⟨t2, ?_, by omega⟩
      rw [transLoop, List.getD_eq_getElem?_getD, hf]
      simpa using ht2
    · have hcnt : cntF s1M (i :: is) = cntF s1M is + 1 := by
        simp only [cntF, List.filter_cons, hf]
        simp
      rw [hcnt] at h
      have hpos : 0 < (s2M.drop k).count true := by omega
      obtain ⟨k2, hk2, _, _, hcount⟩ := nextTrue_spec hpos
      obtain ⟨t2, ht2, hb⟩ :=
        ih (k2 + 1) (if s1.get? i = s2.get? k2 then t else t + 1) (by omega)
      refine ⟨t2, ?_, ?_⟩
      · rw [transLoop, List.getD_eq_getElem?_getD, hf]
        simpa [hk2] using ht2
      · split at hb <;> omega

theorem cntF_range (l : List Bool) : cntF l (List.range l.length) = l.count true := by
  induction l with
  | nil => simp [cntF]
  | cons b l ih =>
    simp only [cntF] at ih ⊢
    rw [List.length_cons, List.range_succ_eq_map, List.filter_cons, List.filter_map]
    simp only [Function.comp_def, Nat.succ_eq_add_one, List.getElem?_cons_succ,
      List.getElem?_cons_zero, List.length_map, List.count_cons]
    rcases b with _ | _ <;> simp [ih]

/-- The transposition pass always succeeds on the output of the matching
pass, with a count of at most `mcount`: the `k` pointer never has to run past
the end of `s2Matches`. -/
theorem transLoop_total (s1 s2 : List Char) :
    ∃ t, transLoop s1 s2 (matchPass s1 s2).s1M (matchPass s1 s2).s2M
        (List.range s1.length) 0 0 = some t ∧ t ≤ (matchPass s1 s2).mcount := by
  obtain ⟨h1, h2, h3, h4⟩ := matchPass_good s1 s2
  have hcnt : cntF (matchPass s1 s2).s1M (List.range s1.length) =
      (matchPass s1 s2).mcount := by
    rw [← h1, cntF_range, h3]
  have hle : cntF (matchPass s1 s2).s1M (List.range s1.length) ≤
      (((matchPass s1 s2).s2M).drop 0).count true := by
    rw [hcnt, List.drop_zero, h4]
  obtain ⟨t2, ht, hb⟩ := transLoop_spec _ 0 0 hle
  exact ⟨t2, ht, by omega⟩

/-! ## Bounds of the Jaro-Winkler score -/

theorem prefLen_le : ∀ (a b : List Char) (fuel : Nat), prefLen a b fuel ≤ fuel := by
  intro a
  induction a with
  | nil => intro b fuel; cases b <;> cases fuel <;> simp [prefLen]
  | cons x as ih =>
    intro b fuel
    cases b with
    | nil => cases fuel <;> simp [prefLen]
    | cons y bs =>
      cases fuel with
      | zero => simp [prefLen]
      | succ f =>
        simp only [prefLen]
        split
        · have := ih bs f; omega
        · omega

theorem jaroWinkler_mem (s1 s2 : List Char) :
    0 ≤ jaroWinkler s1 s2 ∧ jaroWinkler s1 s2 ≤ 1 := by
  obtain ⟨hl1, hl2, hc1, hc2⟩ := matchPass_good s1 s2
  obtain ⟨t0, ht0, htle⟩ := transLoop_total s1 s2
  simp only [jaroWinkler, ht0, Option.getD_some]
  split_ifs with h1 h2 h3
  · norm_num
  · norm_num
  · norm_num
  · have hm0 : s1.length ≠ 0 := fun h => h2 (Or.inl h)
    have hn0 : s2.length ≠ 0 := fun h => h2 (Or.inr h)
    have hμm : (matchPass s1 s2).mcount ≤ s1.length := by
      rw [← hc1, ← hl1]; exact List.count_le_length _ _
    have hμn : (matchPass s1 s2).mcount ≤ s2.length := by
      rw [← hc2, ← hl2]; exact List.count_le_length _ _
    have h1q : (1 : ℚ) ≤ ((matchPass s1 s2).mcount : ℚ) := by
      exact_mod_cast Nat.one_le_iff_ne_zero.mpr h3
    have hmq : ((matchPass s1 s2).mcount : ℚ) ≤ (s1.length : ℚ) := by exact_mod_cast hμm
    have hnq : ((matchPass s1 s2).mcount : ℚ) ≤ (s2.length : ℚ) := by exact_mod_cast hμn
    have hm0q : (0 : ℚ) < (s1.length : ℚ) := by
      exact_mod_cast Nat.pos_of_ne_zero hm0
    have hn0q : (0 : ℚ) < (s2.length : ℚ) := by
      exact_mod_cast Nat.pos_of_ne_zero hn0
    have htq : (0 : ℚ) ≤ (t0 : ℚ) := Nat.cast_nonneg _
    have htμ : (t0 : ℚ) ≤ ((matchPass s1 s2).mcount : ℚ) := by exact_mod_cast htle
    have hpq : (0 : ℚ) ≤ (prefLen s1 s2 4 : ℚ) := Nat.cast_nonneg _
    have hp4 : (prefLen s1 s2 4 : ℚ) ≤ 4 := by exact_mod_cast prefLen_le s1 s2 4
    have ha : (0 : ℚ) ≤ ((matchPass s1 s2).mcount : ℚ) / (s1.length : ℚ) := by positivity
    have ha' : ((matchPass s1 s2).mcount : ℚ) / (s1.length : ℚ) ≤ 1 := by
      rw [div_le_one hm0q]; exact hmq
    have hb : (0 : ℚ) ≤ ((matchPass s1 s2).mcount : ℚ) / (s2.length : ℚ) := by positivity
    have hb' : ((matchPass s1 s2).mcount : ℚ) / (s2.length : ℚ) ≤ 1 := by
      rw [div_le_one hn0q]; exact hnq
    have hd : (0 : ℚ) ≤ (((matchPass s1 s2).mcount : ℚ) - (t0 : ℚ) / 2) /
        ((matchPass s1 s2).mcount : ℚ) :=
      div_nonneg (by linarith) (by linarith)
    have hd' : (((matchPass s1 s2).mcount : ℚ) - (t0 : ℚ) / 2) /
        ((matchPass s1 s2).mcount : ℚ) ≤ 1 := by
      rw [div_le_one (by linarith)]; linarith
    set J : ℚ := (((matchPass s1 s2).mcount : ℚ) / (s1.length : ℚ) +
      ((matchPass s1 s2).mcount : ℚ) / (s2.length : ℚ) +
      (((matchPass s1 s2).mcount : ℚ) - (t0 : ℚ) / 2) /
        ((matchPass s1 s2).mcount : ℚ)) / 3 with hJ
    have hJ0 : 0 ≤ J := by rw [hJ]; linarith
    have hJ1 : J ≤ 1 := by rw [hJ]; linarith
    constructor
    · have hterm : 0 ≤ (prefLen s1 s2 4 : ℚ) * (1 / 10) * (1 - J) :=
        mul_nonneg (mul_nonneg hpq (by norm_num)) (by linarith)
      linarith
    · have key : 0 ≤ (1 - J) * (1 - (prefLen s1 s2 4 : ℚ) * (1 / 10)) :=
        mul_nonneg (by linarith) (by linarith)
      have expand : (1 - J) * (1 - (prefLen s1 s2 4 : ℚ) * (1 / 10)) =
          1 - (J + (prefLen s1 s2 4 : ℚ) * (1 / 10) * (1 - J)) := by ring
      linarith [expand ▸ key]

/-! ## The negative match window -/

theorem scan_empty_of_neg_window {m n : Nat} (h : matchWindow m n < 0) (i : Nat) :
    scanStop (matchWindow m n) i n ≤ scanStart (matchWindow m n) i := by
  unfold matchWindow at h ⊢
  unfold scanStart scanStop
  omega

/-! ## Claim theorems: C4, C10, C6 -/

/-- Claim C4: for all strings `a` and `b` the Jaro-Winkler similarity lies in
`[0, 1]`; `similarity("", "")` is `1.0` and `similarity("", "x")` is `0.0`. -/
theorem jw_bounds_all :
    (∀ s1 s2 : List Char, 0 ≤ jaroWinkler s1 s2 ∧ jaroWinkler s1 s2 ≤ 1) ∧
      jaroWinkler [] [] = 1 ∧ jaroWinkler [] ['x'] = 0 :=
  ⟨jaroWinkler_mem, by decide, by decide⟩

/-- Claim C10: on the output of the matching pass the transposition pass
never runs the pointer `k` past the end of the flag array: it terminates with
a count `t ≤ matches` (its `none` case, which models the JavaScript loop
scanning out of bounds forever, is unreachable), because the matching pass
marks equally many positions in both strings. -/
theorem trans_pass_in_bounds (s1 s2 : List Char) :
    ∃ t, transLoop s1 s2 (matchPass s1 s2).s1M (matchPass s1 s2).s2M
        (List.range s1.length) 0 0 = some t ∧ t ≤ (matchPass s1 s2).mcount :=
  transLoop_total s1 s2

/-- Claim C6, refuted: there is NO pair of non-empty strings with a negative
match window for which some position `i` has a non-empty scan range — the
clamped bounds `max(0, i-w)` and `min(i+w+1, n)` always give an empty range
when `w` is negative (`w = -1` forces `start = i+1 > min(i, n) = end`). -/
theorem neg_window_range_never_nonempty :
    ¬ ∃ (s1 s2 : List Char) (i : Nat),
      s1 ≠ [] ∧ s2 ≠ [] ∧ matchWindow s1.length s2.length < 0 ∧
        i < s1.length ∧
        scanStart (matchWindow s1.length s2.length) i <
          scanStop (matchWindow s1.length s2.length) i s2.length := by
  rintro ⟨s1, s2, i, -, -, hw, -, hr⟩
  exact absurd hr (not_lt.mpr (scan_empty_of_neg_window hw i))

/-- Claim C6 as amended: whenever the match window is negative, the clamped
scan range `[max(0, i-w), min(i+w+1, n))` is empty for EVERY position `i`, so
the matching loop finds no match at all. -/
theorem neg_window_range_empty (m n i : Nat) (h : matchWindow m n < 0) :
    scanStop (matchWindow m n) i n ≤ scanStart (matchWindow m n) i :=
  scan_empty_of_neg_window h i

theorem neg_window_range_empty_witness :
    matchWindow 1 1 < 0 ∧
      scanStop (matchWindow 1 1) 0 1 ≤ scanStart (matchWindow 1 1) 0 :=
  ⟨by decide, neg_window_range_empty 1 1 0 (by decide)⟩

/-! ## The matching pass on a pair of identical strings -/

theorem range'_split (s k d : Nat) :
    List.range' s (k + d) = List.range' s k ++ List.range' (s + k) d := by
  have h := List.range'_append s k d 1
  simp only [Nat.one_mul] at h
  rw [Nat.add_comm k d]
  exact h.symm

theorem set_append_length {α : Type} :
    ∀ (u : List α) (x y : α) (v : List α),
      (u ++ x :: v).set u.length y = u ++ y :: v := by
  intro u
  induction u with
  | nil => simp
  | cons a u ih => intro x y v; simp [List.set_cons_succ, ih]

theorem find?_append_left_none {α : Type} {p : α → Bool} {l₁ l₂ : List α}
    (h : ∀ x ∈ l₁, p x = false) : (l₁ ++ l₂).find? p = l₂.find? p := by
  rw [List.find?_append,
    List.find?_eq_none.mpr (fun x hx => by simp [h x hx]), Option.none_or]

theorem set_append_length' {α : Type} (u : List α) (x y : α) (v : List α)
    (n : Nat) (h : n = u.length) : (u ++ x :: v).set n y = u ++ y :: v := by
  subst h
  exact set_append_length u x y v

/-- On identical strings with a non-negative window, position `a` matches
itself: positions `< a` of `s2Matches` are already claimed and `a` is the
first unclaimed index in the scan range with an equal character. -/
theorem findMatch_self {s : List Char} {a : Nat} (ha : a < s.length)
    (hw : 0 ≤ matchWindow s.length s.length) :
    findMatch (s.getD a ' ') s
      (List.replicate a true ++ List.replicate (s.length - a) false)
      (scanStart (matchWindow s.length s.length) a)
      (scanStop (matchWindow s.length s.length) a s.length) = some a := by
  set w := matchWindow s.length s.length with hwdef
  have hstart : scanStart w a ≤ a := by unfold scanStart; omega
  have hstop : a < scanStop w a s.length := by unfold scanStop; omega
  unfold findMatch
  rw [show scanStop w a s.length - scanStart w a =
      (a - scanStart w a) + (scanStop w a s.length - a) from by omega]
  rw [range'_split, show scanStart w a + (a - scanStart w a) = a from by omega]
  rw [find?_append_left_none]
  · rw [show scanStop w a s.length - a = (scanStop w a s.length - a - 1) + 1
        from by omega]
    rw [List.range'_succ]
    apply List.find?_cons_of_pos
    have h2M : (List.replicate a true ++
        List.replicate (s.length - a) false).get? a = some false := by
      rw [List.get?_eq_getElem?,
        List.getElem?_append_right (by simp : (List.replicate a true).length ≤ a)]
      simp [List.getElem?_replicate]
      omega
    have hsa : s.get? a = some (s.getD a ' ') := by
      rw [List.getD_eq_getElem?_getD, List.get?_eq_getElem?,
        List.getElem?_eq_getElem ha]
      rfl
    rw [decide_eq_true_eq]
    exact ⟨h2M, hsa⟩
  · intro j hj
    rw [List.mem_range'_1] at hj
    have hja : j < a := by omega
    have h2M : (List.replicate a true ++
        List.replicate (s.length - a) false).get? j = some true := by
      rw [List.get?_eq_getElem?,
        List.getElem?_append_left (by simp [hja] : j < (List.replicate a true).length)]
      simp [List.getElem?_replicate, hja]
    rw [decide_eq_false_iff_not]
    rintro ⟨hcontra, -⟩
    rw [h2M] at hcontra
    simp at hcontra

theorem matchFold_self {s : List Char}
    (hw : 0 ≤ matchWindow s.length s.length) :
    ∀ (b a : Nat), a + b = s.length →
      (List.range' a b).foldl (matchStep s s (matchWindow s.length s.length))
        ⟨List.replicate a true ++ List.replicate (s.length - a) false,
         List.replicate a true ++ List.replicate (s.length - a) false, a⟩ =
      ⟨List.replicate s.length true, List.replicate s.length true, s.length⟩ := by
  intro b
  induction b with
  | zero =>
    intro a ha
    have : a = s.length := by omega
    subst this
    simp [List.range'_zero]
  | succ b ih =>
    intro a ha
    have haM : a < s.length := by omega
    obtain ⟨d, hd⟩ : ∃ d, s.length - a = d + 1 := ⟨s.length - a - 1, by omega⟩
    have hd2 : s.length - (a + 1) = d := by omega
    rw [List.range'_succ, List.foldl_cons]
    have hset : (List.replicate a true ++
        List.replicate (s.length - a) false).set a true =
        List.replicate (a + 1) true ++ List.replicate (s.length - (a + 1)) false := by
      rw [hd, hd2, List.replicate_succ,
        set_append_length' (List.replicate a true) false true
          (List.replicate d false) a (by simp)]
      rw [List.replicate_succ', List.append_assoc, List.singleton_append]
    have hstep : matchStep s s (matchWindow s.length s.length)
        ⟨List.replicate a true ++ List.replicate (s.length - a) false,
         List.replicate a true ++ List.replicate (s.length - a) false, a⟩ a =
        ⟨List.replicate (a + 1) true ++ List.replicate (s.length - (a + 1)) false,
         List.replicate (a + 1) true ++ List.replicate (s.length - (a + 1)) false,
         a + 1⟩ := by
      simp only [matchStep, findMatch_self haM hw, hset]
    rw [hstep]
    exact ih (a + 1) (by omega)

theorem matchPass_self {s : List Char} (h2 : 2 ≤ s.length) :
    matchPass s s =
      ⟨List.replicate s.length true, List.replicate s.length true, s.length⟩ := by
  have hw : 0 ≤ matchWindow s.length s.length := by
    unfold matchWindow
    have : 1 ≤ s.length / 2 := by omega
    omega
  unfold matchPass
  rw [List.range_eq_range']
  have h := matchFold_self hw s.length 0 (by omega)
  simpa using h

theorem transLoop_allTrue {s : List Char} :
    ∀ (b a t : Nat), a + b = s.length →
      transLoop s s (List.replicate s.length true)
        (List.replicate s.length true) (List.range' a b) a t = some t := by
  intro b
  induction b with
  | zero => intro a t _; rw [List.range'_zero]; rfl
  | succ b ih =>
    intro a t ha
    have haM : a < s.length := by omega
    have hflag : (List.replicate s.length (true : Bool)).getD a false = true := by
      rw [List.getD_eq_getElem?_getD, List.getElem?_replicate]
      simp [haM]
    have hflag' : (List.replicate s.length (true : Bool))[a]?.getD false = true := by
      rw [List.getElem?_replicate]
      simp [haM]
    have hnt : nextTrue (List.replicate s.length true) a = some a := by
      unfold nextTrue
      obtain ⟨e, he⟩ : ∃ e, s.length - a = e + 1 := ⟨s.length - a - 1, by omega⟩
      rw [List.length_replicate, he]
      simp [nextTrueAux, hflag']
    rw [List.range'_succ, transLoop, hflag, if_pos rfl, hnt]
    show transLoop s s (List.replicate s.length true) (List.replicate s.length true)
      (List.range' (a + 1) b) (a + 1)
      (if s.get? a = s.get? a then t else t + 1) = some t
    rw [if_pos rfl]
    exact ih (a + 1) t (by omega)

/-! ## Claim theorems: C3 -/

/-- Claim C3, refuted: the Jaro-Winkler identity fails on single-character
strings. For `s = "a"` the match window is `-1`, the scan range is empty, no
match is found, and `similarity("a", "a") = 0`, not `1`. -/
theorem jw_self_singleton : jaroWinkler ['a'] ['a'] = 0 := by decide

/-- Claim C3 as amended: the Jaro-Winkler similarity of `s` with itself is
`1.0` for every string `s` of length at least 2 (identity holds except on
single-character strings, where the negative window makes it `0`). -/
theorem jw_self_eq_one (s : List Char) (h2 : 2 ≤ s.length) :
    jaroWinkler s s = 1 := by
  have hm0 : s.length ≠ 0 := by omega
  simp only [jaroWinkler, matchPass_self h2]
  rw [List.range_eq_range', transLoop_allTrue s.length 0 0 (by omega)]
  simp only [Option.getD_some, Nat.cast_zero]
  rw [if_neg (by omega : ¬(s.length = 0 ∧ s.length = 0)),
    if_neg (by omega : ¬(s.length = 0 ∨ s.length = 0)), if_neg hm0]
  have hq : ((s.length : ℚ)) ≠ 0 := by exact_mod_cast hm0
  field_simp
  ring

theorem jw_self_eq_one_witness :
    2 ≤ (['a', 'b'] : List Char).length ∧ jaroWinkler ['a', 'b'] ['a', 'b'] = 1 :=
  ⟨by decide, jw_self_eq_one ['a', 'b'] (by decide)⟩

/-! ## The two handler paths -/

theorem handler_slow_path (sem : List Char → List Char → ℚ)
    (u c : List Char) (t : ℚ) (hu : u ≠ []) (hc : c ≠ [])
    (hne : (normalize u).map Char.toLower ≠ (normalize c).map Char.toLower) :
    handler sem u c t =
      (.ok ⟨decide (t ≤ sem (normalize u) (normalize c) * (8 / 10) +
          jaroWinkler ((normalize u).map Char.toLower)
            ((normalize c).map Char.toLower) * (2 / 10)),
        sem (normalize u) (normalize c) * (8 / 10) +
          jaroWinkler ((normalize u).map Char.toLower)
            ((normalize c).map Char.toLower) * (2 / 10),
        ⟨none, sem (normalize u) (normalize c),
          jaroWinkler ((normalize u).map Char.toLower)
            ((normalize c).map Char.toLower),
          sem (normalize u) (normalize c) * (8 / 10) +
            jaroWinkler ((normalize u).map Char.toLower)
              ((normalize c).map Char.toLower) * (2 / 10)⟩,
        some t⟩, true) := by
  simp [handler, hu, hc, hne]

/-! ## Claim theorems: the handler (C1, C2, C7, C8) -/

/-- Claim C1: off the fast path, the combined score is
`semantic * 0.8 + jaroWinkler * 0.2` and `isCorrect` holds iff
`combined >= threshold`, the comparison being inclusive. -/
theorem combined_score_threshold (sem : List Char → List Char → ℚ)
    (u c : List Char) (t : ℚ) (hu : u ≠ []) (hc : c ≠ [])
    (hne : (normalize u).map Char.toLower ≠ (normalize c).map Char.toLower) :
    ∃ r : Response, handler sem u c t = (.ok r, true) ∧
      r.scores.combined = sem (normalize u) (normalize c) * (8 / 10) +
        jaroWinkler ((normalize u).map Char.toLower)
          ((normalize c).map Char.toLower) * (2 / 10) ∧
      (r.isCorrect = true ↔ t ≤ r.scores.combined) :=
  ⟨_, handler_slow_path sem u c t hu hc hne, rfl, by simp⟩

theorem combined_score_threshold_witness :
    (['a', 'b'] : List Char) ≠ [] ∧ (['c', 'd'] : List Char) ≠ [] ∧
      (normalize ['a', 'b']).map Char.toLower ≠
        (normalize ['c', 'd']).map Char.toLower ∧
      ∃ r : Response,
        handler (fun _ _ => 1) ['a', 'b'] ['c', 'd'] (8 / 10) = (.ok r, true) ∧
          r.scores.combined = (fun _ _ => (1 : ℚ)) (normalize ['a', 'b'])
              (normalize ['c', 'd']) * (8 / 10) +
            jaroWinkler ((normalize ['a', 'b']).map Char.toLower)
              ((normalize ['c', 'd']).map Char.toLower) * (2 / 10) ∧
          (r.isCorrect = true ↔ (8 / 10 : ℚ) ≤ r.scores.combined) :=
  ⟨by decide, by decide, by decide,
    combined_score_threshold (fun _ _ => 1) ['a', 'b'] ['c', 'd'] (8 / 10)
      (by decide) (by decide) (by decide)⟩

/-- Claim C2: whenever the normalized, lower-cased inputs are equal (and the
falsy-check passes), the handler short-circuits with `isCorrect = true`,
`confidence = 1` and all four score fields `1`, without calling the
embedding provider. -/
theorem exact_match_fast_path (sem : List Char → List Char → ℚ)
    (u c : List Char) (t : ℚ) (hu : u ≠ []) (hc : c ≠ [])
    (heq : (normalize u).map Char.toLower = (normalize c).map Char.toLower) :
    handler sem u c t = (.ok ⟨true, 1, ⟨some 1, 1, 1, 1⟩, none⟩, false) := by
  simp [handler, hu, hc, heq]

theorem exact_match_fast_path_witness :
    (['P', 'a'] : List Char) ≠ [] ∧ (['p', 'A'] : List Char) ≠ [] ∧
      (normalize ['P', 'a']).map Char.toLower =
        (normalize ['p', 'A']).map Char.toLower ∧
      handler (fun _ _ => 0) ['P', 'a'] ['p', 'A'] (1 / 2) =
        (.ok ⟨true, 1, ⟨some 1, 1, 1, 1⟩, none⟩, false) :=
  ⟨by decide, by decide, by decide,
    exact_match_fast_path (fun _ _ => 0) ['P', 'a'] ['p', 'A'] (1 / 2)
      (by decide) (by decide) (by decide)⟩

/-- Claim C7, refuted: a whitespace-only `userAnswer` (empty after trimming,
but truthy in JavaScript) is NOT rejected as missing input — the request
proceeds to scoring and the provider IS called. -/
theorem whitespace_input_not_rejected :
    handler (fun _ _ => 0) [' '] ['x'] (3 / 4) ≠ (.missingInput, false) ∧
      (handler (fun _ _ => 0) [' '] ['x'] (3 / 4)).2 = true := by
  decide

/-- Claim C7 as amended: the handler rejects a request as missing input (with
no provider call) exactly when `userAnswer` or `correctAnswer` is the empty
string, BEFORE any trimming; whitespace-only inputs pass the check. -/
theorem missing_input_iff_empty (sem : List Char → List Char → ℚ)
    (u c : List Char) (t : ℚ) :
    handler sem u c t = (.missingInput, false) ↔ (u = [] ∨ c = []) := by
  unfold handler
  split_ifs with h
  · simp [h]
  · simp only [h, iff_false]
    intro hx
    split at hx <;> exact HResult.noConfusion (congrArg Prod.fst hx)

/-- Claim C8, refuted: the exact-match fast-path response carries NO
`threshold` field (`threshold = none`), unlike the combined-scoring response. -/
theorem fast_path_omits_threshold :
    handler (fun _ _ => 0) ['a'] ['a'] (3 / 4) =
      (.ok ⟨true, 1, ⟨some 1, 1, 1, 1⟩, none⟩, false) := by
  decide

/-- Claim C8 as amended: on the combined-scoring path (and only there) the
successful response contains the `threshold` field, echoing the request's
threshold. -/
theorem slow_path_has_threshold (sem : List Char → List Char → ℚ)
    (u c : List Char) (t : ℚ) (hu : u ≠ []) (hc : c ≠ [])
    (hne : (normalize u).map Char.toLower ≠ (normalize c).map Char.toLower) :
    ∃ r : Response, handler sem u c t = (.ok r, true) ∧ r.threshold = some t :=
  ⟨_, handler_slow_path sem u c t hu hc hne, rfl⟩

theorem slow_path_has_threshold_witness :
    (['a'] : List Char) ≠ [] ∧ (['b'] : List Char) ≠ [] ∧
      (normalize ['a']).map Char.toLower ≠ (normalize ['b']).map Char.toLower ∧
      ∃ r : Response, handler (fun _ _ => 0) ['a'] ['b'] (3 / 4) = (.ok r, true) ∧
        r.threshold = some (3 / 4) :=
  ⟨by decide, by decide, by decide,
    slow_path_has_threshold (fun _ _ => 0) ['a'] ['b'] (3 / 4)
      (by decide) (by decide) (by decide)⟩


/-! ## Symmetry of the greedy matching (towards C5) -/

theorem matchWindow_comm (m n : Nat) : matchWindow m n = matchWindow n m := by
  unfold matchWindow
  rw [Nat.max_comm]

theorem compat_symm {s1 s2 : List Char} {w : Int} {i j : Nat}
    (h : Compat s1 s2 w i j) : Compat s2 s1 w j i := by
  obtain ⟨h1, h2, h3, h4, h5⟩ := h
  refine ⟨h2, h1, h3.symm, ?_, ?_⟩
  · unfold scanStart at h4 ⊢
    unfold scanStop at h5
    omega
  · unfold scanStart at h4
    unfold scanStop at h5 ⊢
    omega

theorem matchedN_congr {s1 s2 : List Char} {w : Int} :
    ∀ (K : Nat), ∀ (i j N M : Nat), i + j ≤ K → i + j ≤ N → i + j ≤ M →
      (MatchedN s1 s2 w N i j ↔ MatchedN s1 s2 w M i j) := by
  intro K
  induction K with
  | zero =>
    intro i j N M hK hN hM
    have hi : i = 0 := by omega
    have hj : j = 0 := by omega
    subst hi hj
    cases N <;> cases M <;> simp [MatchedN]
  | succ K ih =>
    intro i j N M hK hN hM
    cases N with
    | zero =>
      have hi : i = 0 := by omega
      have hj : j = 0 := by omega
      subst hi hj
      cases M <;> simp [MatchedN]
    | succ N =>
      cases M with
      | zero =>
        have hi : i = 0 := by omega
        have hj : j = 0 := by omega
        subst hi hj
        simp [MatchedN]
      | succ M =>
        simp only [MatchedN]
        constructor
        · rintro ⟨hc, h2, h3⟩
          refine ⟨hc, ?_, ?_⟩
          · intro j' hj' hcj
            obtain ⟨i', hi', hm⟩ := h2 j' hj' hcj
            exact ⟨i', hi', (ih i' j' N M (by omega) (by omega) (by omega)).mp hm⟩
          · intro i' hi' hci
            obtain ⟨j', hj', hm⟩ := h3 i' hi' hci
            exact ⟨j', hj', (ih i' j' N M (by omega) (by omega) (by omega)).mp hm⟩
        · rintro ⟨hc, h2, h3⟩
          refine ⟨hc, ?_, ?_⟩
          · intro j' hj' hcj
            obtain ⟨i', hi', hm⟩ := h2 j' hj' hcj
            exact ⟨i', hi', (ih i' j' N M (by omega) (by omega) (by omega)).mpr hm⟩
          · intro i' hi' hci
            obtain ⟨j', hj', hm⟩ := h3 i' hi' hci
            exact ⟨j', hj', (ih i' j' N M (by omega) (by omega) (by omega)).mpr hm⟩

theorem matched_iff {s1 s2 : List Char} {w : Int} (i j : Nat) :
    Matched s1 s2 w i j ↔
      Compat s1 s2 w i j ∧
        (∀ j' < j, Compat s1 s2 w i j' → ∃ i' < i, Matched s1 s2 w i' j') ∧
        (∀ i' < i, Compat s1 s2 w i' j → ∃ j' < j, Matched s1 s2 w i' j') := by
  unfold Matched
  rcases hK : i + j with _ | K
  · have hi : i = 0 := by omega
    have hj : j = 0 := by omega
    subst hi hj
    simp [MatchedN]
  · rw [MatchedN]
    constructor
    · rintro ⟨hc, h2, h3⟩
      refine ⟨hc, ?_, ?_⟩
      · intro j' hj' hcj
        obtain ⟨i', hi', hm⟩ := h2 j' hj' hcj
        exact ⟨i', hi',
          (matchedN_congr (i' + j') i' j' K (i' + j') (by omega) (by omega)
            (by omega)).mp hm⟩
      · intro i' hi' hci
        obtain ⟨j', hj', hm⟩ := h3 i' hi' hci
        exact ⟨j', hj',
          (matchedN_congr (i' + j') i' j' K (i' + j') (by omega) (by omega)
            (by omega)).mp hm⟩
    · rintro ⟨hc, h2, h3⟩
      refine ⟨hc, ?_, ?_⟩
      · intro j' hj' hcj
        obtain ⟨i', hi', hm⟩ := h2 j' hj' hcj
        exact ⟨i', hi',
          (matchedN_congr (i' + j') i' j' K (i' + j') (by omega) (by omega)
            (by omega)).mpr hm⟩
      · intro i' hi' hci
        obtain ⟨j', hj', hm⟩ := h3 i' hi' hci
        exact ⟨j', hj',
          (matchedN_congr (i' + j') i' j' K (i' + j') (by omega) (by omega)
            (by omega)).mpr hm⟩

theorem matched_compat {s1 s2 : List Char} {w : Int} {i j : Nat}
    (h : Matched s1 s2 w i j) : Compat s1 s2 w i j :=
  ((matched_iff i j).mp h).1

theorem matched_symm {s1 s2 : List Char} {w : Int} :
    ∀ (K i j : Nat), i + j ≤ K → Matched s1 s2 w i j → Matched s2 s1 w j i := by
  intro K
  induction K with
  | zero =>
    intro i j hK h
    have hi : i = 0 := by omega
    have hj : j = 0 := by omega
    subst hi hj
    rw [matched_iff] at h ⊢
    exact ⟨compat_symm h.1, by omega, by omega⟩
  | succ K ih =>
    intro i j hK h
    rw [matched_iff] at h ⊢
    obtain ⟨hc, h2, h3⟩ := h
    refine ⟨compat_symm hc, ?_, ?_⟩
    · intro x hx hcx
      obtain ⟨y, hy, hm⟩ := h3 x hx (compat_symm hcx)
      exact ⟨y, hy, ih x y (by omega) hm⟩
    · intro y hy hcy
      obtain ⟨x, hx, hm⟩ := h2 y hy (compat_symm hcy)
      exact ⟨x, hx, ih x y (by omega) hm⟩

theorem matched_func_inj {s1 s2 : List Char} {w : Int} :
    ∀ (K i j : Nat), i + j ≤ K →
      (∀ j2, Matched s1 s2 w i j → Matched s1 s2 w i j2 → j = j2) ∧
      (∀ i2, Matched s1 s2 w i j → Matched s1 s2 w i2 j → i = i2) := by
  intro K
  induction K with
  | zero =>
    intro i j hK
    constructor
    · intro j2 h h2
      rcases Nat.lt_trichotomy j j2 with hlt | heq | hgt
      · obtain ⟨-, hcl2, -⟩ := (matched_iff i j2).mp h2
        obtain ⟨i3, hi3, -⟩ := hcl2 j hlt (matched_compat h)
        omega
      · exact heq
      · obtain ⟨-, hcl2, -⟩ := (matched_iff i j).mp h
        obtain ⟨i3, hi3, -⟩ := hcl2 j2 hgt (matched_compat h2)
        omega
    · intro i2 h h2
      rcases Nat.lt_trichotomy i i2 with hlt | heq | hgt
      · obtain ⟨-, -, hcl3⟩ := (matched_iff i2 j).mp h2
        obtain ⟨j3, hj3, -⟩ := hcl3 i hlt (matched_compat h)
        omega
      · exact heq
      · obtain ⟨-, -, hcl3⟩ := (matched_iff i j).mp h
        obtain ⟨j3, hj3, -⟩ := hcl3 i2 hgt (matched_compat h2)
        omega
  | succ K ih =>
    intro i j hK
    constructor
    · intro j2 h h2
      rcases Nat.lt_trichotomy j j2 with hlt | heq | hgt
      · obtain ⟨-, hcl2, -⟩ := (matched_iff i j2).mp h2
        obtain ⟨i3, hi3, hm3⟩ := hcl2 j hlt (matched_compat h)
        have := (ih i3 j (by omega)).2 i hm3 h
        omega
      · exact heq
      · obtain ⟨-, hcl2, -⟩ := (matched_iff i j).mp h
        obtain ⟨i3, hi3, hm3⟩ := hcl2 j2 hgt (matched_compat h2)
        have := (ih i3 j2 (by omega)).2 i hm3 h2
        omega
    · intro i2 h h2
      rcases Nat.lt_trichotomy i i2 with hlt | heq | hgt
      · obtain ⟨-, -, hcl3⟩ := (matched_iff i2 j).mp h2
        obtain ⟨j3, hj3, hm3⟩ := hcl3 i hlt (matched_compat h)
        have := (ih i j3 (by omega)).1 j hm3 h
        omega
      · exact heq
      · obtain ⟨-, -, hcl3⟩ := (matched_iff i j).mp h
        obtain ⟨j3, hj3, hm3⟩ := hcl3 i2 hgt (matched_compat h2)
        have := (ih i2 j3 (by omega)).1 j hm3 h2
        omega

theorem matched_func {s1 s2 : List Char} {w : Int} {i j j2 : Nat}
    (h : Matched s1 s2 w i j) (h2 : Matched s1 s2 w i j2) : j = j2 :=
  (matched_func_inj (i + j) i j le_rfl).1 j2 h h2

theorem matched_inj {s1 s2 : List Char} {w : Int} {i i2 j : Nat}
    (h : Matched s1 s2 w i j) (h2 : Matched s1 s2 w i2 j) : i = i2 :=
  (matched_func_inj (i + j) i j le_rfl).2 i2 h h2

theorem find?_range'_eq_some {p : Nat → Bool} :
    ∀ (len s j : Nat),
      (List.range' s len).find? p = some j ↔
        (s ≤ j ∧ j < s + len ∧ p j = true ∧ ∀ x, s ≤ x → x < j → p x = false) := by
  intro len
  induction len with
  | zero =>
    intro s j
    simp only [List.range'_zero, List.find?_nil]
    constructor
    · intro h; cases h
    · rintro ⟨h1, h2, -, -⟩; omega
  | succ len ih =>
    intro s j
    rw [List.range'_succ]
    rcases hp : p s with _ | _
    · rw [List.find?_cons_of_neg _ (by simp [hp])]
      rw [ih (s + 1) j]
      constructor
      · rintro ⟨h1, h2, h3, h4⟩
        refine ⟨by omega, by omega, h3, ?_⟩
        intro x hx1 hx2
        by_cases hxs : x = s
        · rw [hxs]; exact hp
        · exact h4 x (by omega) hx2
      · rintro ⟨h1, h2, h3, h4⟩
        have hjs : j ≠ s := by
          intro he
          rw [he] at h3
          rw [h3] at hp
          cases hp
        refine ⟨by omega, by omega, h3, fun x hx1 hx2 => h4 x (by omega) hx2⟩
    · rw [List.find?_cons_of_pos _ hp]
      constructor
      · intro h
        have hjs : s = j := Option.some.inj h
        subst hjs
        exact ⟨le_refl s, by omega, hp, fun x hx1 hx2 => by omega⟩
      · rintro ⟨h1, h2, h3, h4⟩
        rcases Nat.eq_or_lt_of_le h1 with he | hlt
        · rw [he]
        · have := h4 s (le_refl s) hlt
          rw [this] at hp
          cases hp

theorem findMatch_pred_iff {s2 : List Char} {s2M : List Bool}
    (hl2 : s2M.length = s2.length) (c : Char) (j : Nat) :
    (decide (s2M.get? j = some false ∧ s2.get? j = some c) = true) ↔
      (j < s2.length ∧ s2.getD j ' ' = c ∧ s2M.getD j false = false) := by
  rw [decide_eq_true_eq]
  constructor
  · rintro ⟨hm, hc⟩
    have hj : j < s2.length := by
      by_contra hn
      rw [List.get?_eq_getElem?, List.getElem?_eq_none (by omega)] at hc
      cases hc
    refine ⟨hj, ?_, ?_⟩
    · rw [List.getD_eq_getElem?_getD, List.getElem?_eq_getElem hj]
      rw [List.get?_eq_getElem?, List.getElem?_eq_getElem hj] at hc
      exact Option.some.inj hc
    · rw [List.getD_eq_getElem?_getD]
      rw [List.get?_eq_getElem?] at hm
      rw [hm]
      rfl
  · rintro ⟨hj, hc, hm⟩
    have hj2 : j < s2M.length := by omega
    rw [List.getD_eq_getElem?_getD, List.getElem?_eq_getElem hj2] at hm
    rw [List.getD_eq_getElem?_getD, List.getElem?_eq_getElem hj] at hc
    simp only [Option.getD_some] at hm hc
    constructor
    · rw [List.get?_eq_getElem?, List.getElem?_eq_getElem hj2, hm]
    · rw [List.get?_eq_getElem?, List.getElem?_eq_getElem hj, hc]

theorem findMatch_some_iff {s1 s2 : List Char} {w : Int} {s2M : List Bool}
    {a j0 : Nat} (ha : a < s1.length) (hl2 : s2M.length = s2.length) :
    findMatch (s1.getD a ' ') s2 s2M (scanStart w a)
        (scanStop w a s2.length) = some j0 ↔
      ((Compat s1 s2 w a j0 ∧ s2M.getD j0 false = false) ∧
        ∀ j' < j0, Compat s1 s2 w a j' → s2M.getD j' false = true) := by
  unfold findMatch
  rw [find?_range'_eq_some]
  constructor
  · rintro ⟨h1, h2, h3, h4⟩
    have hj0lt : j0 < scanStop w a s2.length := by omega
    obtain ⟨hn, hcq, hm⟩ := (findMatch_pred_iff hl2 _ j0).mp h3
    refine ⟨⟨⟨ha, hn, hcq.symm, h1, hj0lt⟩, hm⟩, ?_⟩
    intro j' hj' hcomp
    obtain ⟨-, hn2, hcq2, hs2, he2⟩ := hcomp
    have hpF := h4 j' hs2 hj'
    by_contra hcl
    have hmf : s2M.getD j' false = false := by
      revert hcl; cases s2M.getD j' false <;> simp
    have hpt := (findMatch_pred_iff hl2 _ j').mpr ⟨hn2, hcq2.symm, hmf⟩
    rw [hpF] at hpt
    cases hpt
  · rintro ⟨⟨hcomp, hm⟩, hmin⟩
    obtain ⟨-, hn, hcq, hs, he⟩ := hcomp
    refine ⟨hs, by omega, (findMatch_pred_iff hl2 _ j0).mpr ⟨hn, hcq.symm, hm⟩, ?_⟩
    intro x hx1 hx2
    by_cases hpx : (decide (s2M.get? x = some false ∧
        s2.get? x = some (s1.getD a ' '))) = true
    · obtain ⟨hxn, hxc, hxm⟩ := (findMatch_pred_iff hl2 _ x).mp hpx
      have hcx : Compat s1 s2 w a x := ⟨ha, hxn, hxc.symm, hx1, by omega⟩
      have := hmin x hx2 hcx
      rw [this] at hxm
      cases hxm
    · revert hpx
      cases (decide (s2M.get? x = some false ∧ s2.get? x = some (s1.getD a ' '))) <;> simp

theorem findMatch_none_iff {s1 s2 : List Char} {w : Int} {s2M : List Bool}
    {a : Nat} (ha : a < s1.length) (hl2 : s2M.length = s2.length) :
    findMatch (s1.getD a ' ') s2 s2M (scanStart w a)
        (scanStop w a s2.length) = none ↔
      ∀ j, Compat s1 s2 w a j → s2M.getD j false = true := by
  unfold findMatch
  rw [List.find?_eq_none]
  constructor
  · intro h j hcomp
    obtain ⟨-, hn, hcq, hs, he⟩ := hcomp
    by_contra hcl
    have hm : s2M.getD j false = false := by
      revert hcl; cases s2M.getD j false <;> simp
    have hpj := (findMatch_pred_iff hl2 _ j).mpr ⟨hn, hcq.symm, hm⟩
    have hjmem : j ∈ List.range' (scanStart w a)
        (scanStop w a s2.length - scanStart w a) := by
      rw [List.mem_range'_1]
      omega
    exact (h j hjmem) hpj
  · intro h x hx
    rw [List.mem_range'_1] at hx
    intro hpx
    obtain ⟨hxn, hxc, hxm⟩ := (findMatch_pred_iff hl2 _ x).mp hpx
    have hcx : Compat s1 s2 w a x := ⟨ha, hxn, hxc.symm, hx.1, by omega⟩
    rw [h x hcx] at hxm
    cases hxm

/-- The heart of the symmetry argument: with the claimed-flag invariant, a
pair `(i, j)` is produced by the remaining greedy loop iff `i` is not yet
processed and `(i, j)` satisfies the symmetric characterization `Matched`. -/
theorem gpairsAux_mem {s1 s2 : List Char} {w : Int} :
    ∀ (b a : Nat) (s2M : List Bool), a + b = s1.length →
      s2M.length = s2.length →
      (∀ j, s2M.getD j false = true ↔ ∃ i' < a, Matched s1 s2 w i' j) →
      (∀ i' < a, ∀ j, Compat s1 s2 w i' j → s2M.getD j false = false →
        ∃ j' < j, Matched s1 s2 w i' j') →
      ∀ i j, ((i, j) ∈ gpairsAux s1 s2 w (List.range' a b) s2M ↔
        (a ≤ i ∧ Matched s1 s2 w i j)) := by
  intro b
  induction b with
  | zero =>
    intro a s2M ha hl2 hS hT i j
    rw [List.range'_zero]
    simp only [gpairsAux, List.not_mem_nil, false_iff]
    rintro ⟨hai, hm⟩
    have := (matched_compat hm).1
    omega
  | succ b ih =>
    intro a s2M ha hl2 hS hT i j
    have haM : a < s1.length := by omega
    rw [List.range'_succ]
    rcases hfm : findMatch (s1.getD a ' ') s2 s2M (scanStart w a)
        (scanStop w a s2.length) with _ | j0
    · -- no match for position a
      have hnone := (findMatch_none_iff haM hl2).mp hfm
      have hNK : ∀ j2, ¬ Matched s1 s2 w a j2 := by
        intro j2 hm
        obtain ⟨hcomp, -, hcl3⟩ := (matched_iff a j2).mp hm
        have hclaimed := hnone j2 hcomp
        obtain ⟨i', hi', hm'⟩ := (hS j2).mp hclaimed
        obtain ⟨j', hj', hm2⟩ := hcl3 i' hi' (matched_compat hm')
        have := matched_func hm' hm2
        omega
      have hstep : gpairsAux s1 s2 w (a :: List.range' (a + 1) b) s2M =
          gpairsAux s1 s2 w (List.range' (a + 1) b) s2M := by
        rw [gpairsAux, hfm]
      rw [hstep, ih (a + 1) s2M (by omega) hl2 ?_ ?_ i j]
      · constructor
        · rintro ⟨hai, hm⟩; exact ⟨by omega, hm⟩
        · rintro ⟨hai, hm⟩
          refine ⟨?_, hm⟩
          rcases Nat.eq_or_lt_of_le hai with he | hlt
          · exact absurd hm (he ▸ hNK j)
          · omega
      · intro j2
        rw [hS j2]
        constructor
        · rintro ⟨i', hi', hm⟩; exact ⟨i', by omega, hm⟩
        · rintro ⟨i', hi', hm⟩
          refine ⟨i', ?_, hm⟩
          rcases Nat.lt_or_ge i' a with h | h
          · exact h
          · have : i' = a := by omega
            exact absurd hm (this ▸ hNK j2)
      · intro i' hi' j2 hcomp hunc
        rcases Nat.lt_or_ge i' a with h | h
        · exact hT i' h j2 hcomp hunc
        · have hia : i' = a := by omega
          subst hia
          rw [hnone j2 hcomp] at hunc
          cases hunc
    · -- position a matches j0
      obtain ⟨⟨hcomp0, hunc0⟩, hmin0⟩ := (findMatch_some_iff haM hl2).mp hfm
      have hj0n : j0 < s2M.length := by
        have := hcomp0.2.1
        omega
      have hMa : Matched s1 s2 w a j0 := by
        rw [matched_iff]
        refine ⟨hcomp0, ?_, ?_⟩
        · intro j' hj' hcj
          exact (hS j').mp (hmin0 j' hj' hcj)
        · intro i' hi' hci
          exact hT i' hi' j0 hci hunc0
      have hgrow : ∀ j2, Compat s1 s2 w a j2 → s2M.getD j2 false = false →
          j2 ≠ j0 → j0 < j2 := by
        intro j2 hc2 hu2 hne
        rcases Nat.lt_trichotomy j2 j0 with h | h | h
        · rw [hmin0 j2 h hc2] at hu2; cases hu2
        · exact absurd h hne
        · exact h
      have hunch : ∀ j2, j2 ≠ j0 →
          (s2M.set j0 true).getD j2 false = s2M.getD j2 false := by
        intro j2 hj2
        rw [List.getD_eq_getElem?_getD, List.getD_eq_getElem?_getD,
          List.getElem?_set_ne (fun he => hj2 he.symm)]
      have hS2 : ∀ j2, (s2M.set j0 true).getD j2 false = true ↔
          ∃ i' < a + 1, Matched s1 s2 w i' j2 := by
        intro j2
        by_cases hj2 : j2 = j0
        · subst hj2
          constructor
          · intro _; exact ⟨a, by omega, hMa⟩
          · intro _
            rw [List.getD_eq_getElem?_getD, List.getElem?_set_self hj0n]
            rfl
        · rw [hunch j2 hj2, hS j2]
          constructor
          · rintro ⟨i', hi', hm⟩; exact ⟨i', by omega, hm⟩
          · rintro ⟨i', hi', hm⟩
            refine ⟨i', ?_, hm⟩
            rcases Nat.lt_or_ge i' a with h | h
            · exact h
            · have hia : i' = a := by omega
              subst hia
              exact absurd (matched_func hMa hm) (fun he => hj2 he.symm)
      have hT2 : ∀ i' < a + 1, ∀ j2, Compat s1 s2 w i' j2 →
          (s2M.set j0 true).getD j2 false = false →
          ∃ j' < j2, Matched s1 s2 w i' j' := by
        intro i' hi' j2 hc2 hu2
        have hne : j2 ≠ j0 := by
          intro he
          subst he
          rw [List.getD_eq_getElem?_getD, List.getElem?_set_self hj0n] at hu2
          cases hu2
        rw [hunch j2 hne] at hu2
        rcases Nat.lt_or_ge i' a with h | h
        · exact hT i' h j2 hc2 hu2
        · have hia : i' = a := by omega
          subst hia
          exact ⟨j0, hgrow j2 hc2 hu2 hne, hMa⟩
      have hstep : gpairsAux s1 s2 w (a :: List.range' (a + 1) b) s2M =
          (a, j0) :: gpairsAux s1 s2 w (List.range' (a + 1) b)
            (s2M.set j0 true) := by
        rw [gpairsAux, hfm]
      rw [hstep, List.mem_cons,
        ih (a + 1) (s2M.set j0 true) (by omega) (by simpa using hl2) hS2 hT2 i j]
      constructor
      · rintro (he | ⟨hai, hm⟩)
        · have h1 : i = a := congrArg Prod.fst he
          have h2 : j = j0 := congrArg Prod.snd he
          rw [h1, h2]
          exact ⟨le_refl a, hMa⟩
        · exact ⟨by omega, hm⟩
      · rintro ⟨hai, hm⟩
        rcases Nat.eq_or_lt_of_le hai with he | hlt
        · left
          rw [Prod.mk.injEq]
          rw [← he] at hm
          exact ⟨he.symm, (matched_func hMa hm).symm⟩
        · right
          exact ⟨hlt, hm⟩

theorem gpairs_mem (s1 s2 : List Char) (i j : Nat) :
    (i, j) ∈ gpairs s1 s2 ↔
      Matched s1 s2 (matchWindow s1.length s2.length) i j := by
  have hS : ∀ j2, (List.replicate s2.length false).getD j2 false = true ↔
      ∃ i' < 0, Matched s1 s2 (matchWindow s1.length s2.length) i' j2 := by
    intro j2
    constructor
    · intro h
      exfalso
      rw [List.getD_eq_getElem?_getD, List.getElem?_replicate] at h
      revert h
      split <;> simp
    · rintro ⟨i', hi', -⟩
      omega
  have hT : ∀ i' < 0, ∀ j2,
      Compat s1 s2 (matchWindow s1.length s2.length) i' j2 →
      (List.replicate s2.length false).getD j2 false = false →
      ∃ j' < j2, Matched s1 s2 (matchWindow s1.length s2.length) i' j' := by
    intro i' hi'
    exact absurd hi' (Nat.not_lt_zero i')
  unfold gpairs
  rw [List.range_eq_range',
    gpairsAux_mem s1.length 0 (List.replicate s2.length false) (by omega)
      (by simp) hS hT i j]
  simp

theorem gpairsAux_fst_sublist {s1 s2 : List Char} {w : Int} :
    ∀ (is : List Nat) (s2M : List Bool),
      ((gpairsAux s1 s2 w is s2M).map Prod.fst).Sublist is := by
  intro is
  induction is with
  | nil => intro s2M; simp [gpairsAux]
  | cons i is ih =>
    intro s2M
    rcases hfm : findMatch (s1.getD i ' ') s2 s2M (scanStart w i)
        (scanStop w i s2.length) with _ | j
    · rw [gpairsAux, hfm]
      exact (ih s2M).cons i
    · rw [gpairsAux, hfm]
      simp only [List.map_cons]
      exact (ih (s2M.set j true)).cons₂ i

theorem gpairs_nodup (s1 s2 : List Char) : (gpairs s1 s2).Nodup := by
  apply List.Nodup.of_map Prod.fst
  apply List.Sublist.nodup (gpairsAux_fst_sublist (List.range s1.length) _)
  exact List.nodup_range s1.length

theorem gpairs_perm_swap (s1 s2 : List Char) :
    (gpairs s1 s2).Perm ((gpairs s2 s1).map Prod.swap) := by
  rw [List.perm_ext_iff_of_nodup (gpairs_nodup s1 s2)
    ((gpairs_nodup s2 s1).map Prod.swap_injective)]
  intro p
  obtain ⟨i, j⟩ := p
  rw [gpairs_mem]
  constructor
  · intro hm
    rw [List.mem_map]
    refine ⟨(j, i), ?_, rfl⟩
    rw [gpairs_mem, matchWindow_comm]
    exact matched_symm (i + j) i j le_rfl hm
  · intro hmem
    rw [List.mem_map] at hmem
    obtain ⟨⟨j2, i2⟩, hmem2, heq⟩ := hmem
    have h1 : i2 = i := congrArg Prod.fst heq
    have h2 : j2 = j := congrArg Prod.snd heq
    rw [h1, h2] at hmem2
    rw [gpairs_mem, matchWindow_comm] at hmem2
    exact matched_symm (j + i) j i le_rfl hmem2

theorem matchFold_gpairs {s1 s2 : List Char} {w : Int} :
    ∀ (is : List Nat) (st : MState),
      is.foldl (matchStep s1 s2 w) st =
        ⟨setTrues st.s1M ((gpairsAux s1 s2 w is st.s2M).map Prod.fst),
         setTrues st.s2M ((gpairsAux s1 s2 w is st.s2M).map Prod.snd),
         st.mcount + (gpairsAux s1 s2 w is st.s2M).length⟩ := by
  intro is
  induction is with
  | nil =>
    intro st
    simp [gpairsAux, setTrues]
  | cons i is ih =>
    intro st
    rw [List.foldl_cons]
    rcases hfm : findMatch (s1.getD i ' ') s2 st.s2M (scanStart w i)
        (scanStop w i s2.length) with _ | j
    · have hstep : matchStep s1 s2 w st i = st := by
        unfold matchStep; rw [hfm]
      rw [hstep, ih st, gpairsAux, hfm]
    · have hstep : matchStep s1 s2 w st i =
          ⟨st.s1M.set i true, st.s2M.set j true, st.mcount + 1⟩ := by
        unfold matchStep; rw [hfm]
      rw [hstep, ih ⟨st.s1M.set i true, st.s2M.set j true, st.mcount + 1⟩,
        gpairsAux, hfm]
      simp only [List.map_cons, List.length_cons]
      have e1 : setTrues st.s1M
          (i :: (gpairsAux s1 s2 w is (st.s2M.set j true)).map Prod.fst) =
          setTrues (st.s1M.set i true)
            ((gpairsAux s1 s2 w is (st.s2M.set j true)).map Prod.fst) := rfl
      have e2 : setTrues st.s2M
          (j :: (gpairsAux s1 s2 w is (st.s2M.set j true)).map Prod.snd) =
          setTrues (st.s2M.set j true)
            ((gpairsAux s1 s2 w is (st.s2M.set j true)).map Prod.snd) := rfl
      rw [e1, e2]
      congr 1
      omega

theorem matchPass_gpairs (s1 s2 : List Char) :
    matchPass s1 s2 =
      ⟨setTrues (List.replicate s1.length false) ((gpairs s1 s2).map Prod.fst),
       setTrues (List.replicate s2.length false) ((gpairs s1 s2).map Prod.snd),
       (gpairs s1 s2).length⟩ := by
  unfold matchPass gpairs
  rw [matchFold_gpairs]
  simp

theorem setTrues_perm {ids ids2 : List Nat} (h : ids.Perm ids2) :
    ∀ (l : List Bool), setTrues l ids = setTrues l ids2 := by
  induction h with
  | nil => intro l; rfl
  | cons x h2 ih =>
    intro l
    exact ih (l.set x true)
  | swap x y t =>
    intro l
    show setTrues ((l.set y true).set x true) t =
      setTrues ((l.set x true).set y true) t
    by_cases hxy : x = y
    · rw [hxy]
    · rw [List.set_comm _ _ _ hxy]
  | trans h1 h2 ih1 ih2 =>
    intro l
    exact (ih1 l).trans (ih2 l)

theorem matchPass_swap_flags (s1 s2 : List Char) :
    (matchPass s1 s2).s1M = (matchPass s2 s1).s2M ∧
      (matchPass s1 s2).s2M = (matchPass s2 s1).s1M ∧
      (matchPass s1 s2).mcount = (matchPass s2 s1).mcount := by
  have hperm := gpairs_perm_swap s1 s2
  rw [matchPass_gpairs s1 s2, matchPass_gpairs s2 s1]
  refine ⟨?_, ?_, ?_⟩
  · apply setTrues_perm
    have h1 := hperm.map Prod.fst
    rw [List.map_map] at h1
    have h2 : (Prod.fst ∘ Prod.swap : Nat × Nat → Nat) = Prod.snd := by
      funext p; rfl
    rw [h2] at h1
    exact h1
  · apply setTrues_perm
    have h1 := hperm.map Prod.snd
    rw [List.map_map] at h1
    have h2 : (Prod.snd ∘ Prod.swap : Nat × Nat → Nat) = Prod.fst := by
      funext p; rfl
    rw [h2] at h1
    exact h1
  · show (gpairs s1 s2).length = (gpairs s2 s1).length
    rw [hperm.length_eq, List.length_map]

/-! ## The transposition pass as a Hamming distance -/

theorem nextTrueAux_between {s2M : List Bool} :
    ∀ (fuel k k2 : Nat), nextTrueAux s2M fuel k = some k2 →
      ∀ j, k ≤ j → j < k2 → s2M.getD j false = false := by
  intro fuel
  induction fuel with
  | zero => intro k k2 h; cases h
  | succ f ih =>
    intro k k2 h j hj1 hj2
    rcases hb : s2M[k]?.getD false with _ | _
    · have hstep : nextTrueAux s2M (f + 1) k = nextTrueAux s2M f (k + 1) := by
        simp [nextTrueAux, hb]
      rw [hstep] at h
      by_cases hjk : j = k
      · rw [hjk, List.getD_eq_getElem?_getD, hb]
      · exact ih (k + 1) k2 h j (by omega) hj2
    · have hstep : nextTrueAux s2M (f + 1) k = some k := by
        simp [nextTrueAux, hb]
      rw [hstep] at h
      have : k = k2 := Option.some.inj h
      omega

theorem nextTrue_between {s2M : List Bool} {k k2 : Nat}
    (h : nextTrue s2M k = some k2) :
    ∀ j, k ≤ j → j < k2 → s2M.getD j false = false :=
  nextTrueAux_between (s2M.length - k) k k2 h

theorem maskChars_skip {s2 : List Char} {s2M : List Bool}
    (hl : s2M.length = s2.length) :
    ∀ (d k : Nat), k + d ≤ s2M.length →
      (∀ j, k ≤ j → j < k + d → s2M.getD j false = false) →
      maskChars (s2.drop k) (s2M.drop k) =
        maskChars (s2.drop (k + d)) (s2M.drop (k + d)) := by
  intro d
  induction d with
  | zero => intro k _ _; rfl
  | succ d ih =>
    intro k hk hflags
    have hkM : k < s2M.length := by omega
    have hkS : k < s2.length := by omega
    have hdM := List.drop_eq_getElem_cons hkM
    have hdS := List.drop_eq_getElem_cons hkS
    have hfk : s2M[k] = false := by
      have h2 := hflags k le_rfl (by omega)
      rw [List.getD_eq_getElem?_getD, List.getElem?_eq_getElem hkM] at h2
      simpa using h2
    rw [hdM, hdS, hfk]
    rw [show maskChars (s2[k] :: s2.drop (k + 1)) (false :: s2M.drop (k + 1)) =
      maskChars (s2.drop (k + 1)) (s2M.drop (k + 1)) from by simp [maskChars]]
    rw [show k + (d + 1) = (k + 1) + d from by omega]
    exact ih (k + 1) (by omega) (fun j hj1 hj2 => hflags j (by omega) (by omega))

theorem hamming_comm : ∀ (a b : List Char), hamming a b = hamming b a := by
  intro a
  induction a with
  | nil => intro b; cases b <;> rfl
  | cons x xs ih =>
    intro b
    cases b with
    | nil => rfl
    | cons y ys =>
      show (if x = y then 0 else 1) + hamming xs ys =
        (if y = x then 0 else 1) + hamming ys xs
      rw [ih ys]
      congr 1
      by_cases h : x = y
      · rw [if_pos h, if_pos h.symm]
      · rw [if_neg h, if_neg (fun he => h he.symm)]

theorem transLoop_hamming {s1 s2 : List Char} {s1M s2M : List Bool}
    (hl1 : s1M.length = s1.length) (hl2 : s2M.length = s2.length) :
    ∀ (b a k t : Nat), a + b = s1.length →
      (s1M.drop a).count true ≤ (s2M.drop k).count true →
      transLoop s1 s2 s1M s2M (List.range' a b) k t =
        some (t + hamming (maskChars (s1.drop a) (s1M.drop a))
          (maskChars (s2.drop k) (s2M.drop k))) := by
  intro b
  induction b with
  | zero =>
    intro a k t ha hcount
    rw [List.range'_zero]
    have hdrop : s1M.drop a = [] := List.drop_eq_nil_of_le (by omega)
    rw [hdrop]
    rw [show maskChars (s1.drop a) ([] : List Bool) = [] from by
      cases s1.drop a <;> rfl]
    rw [show hamming [] (maskChars (s2.drop k) (s2M.drop k)) = 0 from by
      cases maskChars (s2.drop k) (s2M.drop k) <;> rfl]
    rw [Nat.add_zero]
    rfl
  | succ b ih =>
    intro a k t ha hcount
    have haM : a < s1M.length := by omega
    have haS : a < s1.length := by omega
    have hdM := List.drop_eq_getElem_cons haM
    have hdS := List.drop_eq_getElem_cons haS
    rw [List.range'_succ, transLoop]
    rcases hfa : s1M[a] with _ | _
    · have hflag : s1M.getD a false = false := by
        rw [List.getD_eq_getElem?_getD, List.getElem?_eq_getElem haM, hfa]
        rfl
      rw [hflag, if_neg (by simp)]
      have hmask : maskChars (s1.drop a) (s1M.drop a) =
          maskChars (s1.drop (a + 1)) (s1M.drop (a + 1)) := by
        rw [hdM, hdS, hfa]
        simp [maskChars]
      have hcount2 : (s1M.drop (a + 1)).count true ≤
          (s2M.drop k).count true := by
        rw [hdM, hfa] at hcount
        simp only [List.count_cons] at hcount
        omega
      rw [hmask]
      exact ih (a + 1) k t (by omega) hcount2
    · have hflag : s1M.getD a false = true := by
        rw [List.getD_eq_getElem?_getD, List.getElem?_eq_getElem haM, hfa]
        rfl
      rw [hflag, if_pos rfl]
      have hcnt_a : (s1M.drop a).count true =
          (s1M.drop (a + 1)).count true + 1 := by
        rw [hdM, hfa]
        simp [List.count_cons]
      have hpos : 0 < (s2M.drop k).count true := by omega
      obtain ⟨k2, hk2, hkk2, hget, hcnt_k⟩ := nextTrue_spec hpos
      rw [hk2]
      have hk2M : k2 < s2M.length := by
        rw [List.get?_eq_getElem?] at hget
        by_contra hn
        rw [List.getElem?_eq_none (by omega)] at hget
        cases hget
      have hk2S : k2 < s2.length := by omega
      have hmaskskip : maskChars (s2.drop k) (s2M.drop k) =
          maskChars (s2.drop k2) (s2M.drop k2) := by
        have h2 := maskChars_skip hl2 (k2 - k) k (by omega)
          (fun j hj1 hj2 => nextTrue_between hk2 j hj1 (by omega))
        rw [show k + (k2 - k) = k2 from by omega] at h2
        exact h2
      have hdM2 := List.drop_eq_getElem_cons hk2M
      have hdS2 := List.drop_eq_getElem_cons hk2S
      have hfk2 : s2M[k2] = true := by
        rw [List.get?_eq_getElem?, List.getElem?_eq_getElem hk2M] at hget
        exact Option.some.inj hget
      have hcount2 : (s1M.drop (a + 1)).count true ≤
          (s2M.drop (k2 + 1)).count true := by omega
      have hIH := ih (a + 1) (k2 + 1)
        (if s1.get? a = s2.get? k2 then t else t + 1) (by omega) hcount2
      show transLoop s1 s2 s1M s2M (List.range' (a + 1) b) (k2 + 1)
        (if s1.get? a = s2.get? k2 then t else t + 1) = _
      rw [hIH]
      have hchars : (if s1.get? a = s2.get? k2 then t else t + 1) =
          t + (if s1[a] = s2[k2] then 0 else 1) := by
        rw [List.get?_eq_getElem?, List.get?_eq_getElem?,
          List.getElem?_eq_getElem haS, List.getElem?_eq_getElem hk2S]
        by_cases h : s1[a] = s2[k2]
        · simp [h]
        · rw [if_neg (by simpa using h), if_neg h]
      rw [hchars, hmaskskip, hdM, hdS, hdM2, hdS2, hfa, hfk2]
      rw [show maskChars (s1[a] :: s1.drop (a + 1)) (true :: s1M.drop (a + 1)) =
        s1[a] :: maskChars (s1.drop (a + 1)) (s1M.drop (a + 1)) from by
          simp [maskChars]]
      rw [show maskChars (s2[k2] :: s2.drop (k2 + 1)) (true :: s2M.drop (k2 + 1)) =
        s2[k2] :: maskChars (s2.drop (k2 + 1)) (s2M.drop (k2 + 1)) from by
          simp [maskChars]]
      rw [show hamming (s1[a] :: maskChars (s1.drop (a + 1)) (s1M.drop (a + 1)))
          (s2[k2] :: maskChars (s2.drop (k2 + 1)) (s2M.drop (k2 + 1))) =
        (if s1[a] = s2[k2] then 0 else 1) +
          hamming (maskChars (s1.drop (a + 1)) (s1M.drop (a + 1)))
            (maskChars (s2.drop (k2 + 1)) (s2M.drop (k2 + 1))) from by
          simp [hamming]]
      congr 1
      omega

theorem prefLen_comm : ∀ (a b : List Char) (fuel : Nat),
    prefLen a b fuel = prefLen b a fuel := by
  intro a
  induction a with
  | nil => intro b fuel; cases b <;> cases fuel <;> rfl
  | cons x xs ih =>
    intro b fuel
    cases b with
    | nil => cases fuel <;> rfl
    | cons y ys =>
      cases fuel with
      | zero => rfl
      | succ f =>
        show (if x = y then prefLen xs ys f + 1 else 0) =
          (if y = x then prefLen ys xs f + 1 else 0)
        by_cases h : x = y
        · rw [if_pos h, if_pos h.symm, ih ys f]
        · rw [if_neg h, if_neg (fun he => h he.symm)]

/-! ## Claim theorem: C5 -/

/-- Claim C5: the Jaro-Winkler similarity is symmetric,
`similarity(a, b) = similarity(b, a)` for all strings, despite the
asymmetric-looking first-fit matching loop. The greedy matching claims
exactly the transposed pair set when the arguments swap, so the match count,
the transposition count and the prefix bonus all coincide. -/
theorem jaroWinkler_symm (s1 s2 : List Char) :
    jaroWinkler s1 s2 = jaroWinkler s2 s1 := by
  by_cases h1 : s1.length = 0
  · by_cases h2 : s2.length = 0
    · simp only [jaroWinkler]
      rw [if_pos ⟨h1, h2⟩, if_pos ⟨h2, h1⟩]
    · simp only [jaroWinkler]
      rw [if_neg (fun hand => h2 hand.2), if_pos (Or.inl h1),
        if_neg (fun hand => h2 hand.1), if_pos (Or.inr h1)]
  · by_cases h2 : s2.length = 0
    · simp only [jaroWinkler]
      rw [if_neg (fun hand => h1 hand.1), if_pos (Or.inr h2),
        if_neg (fun hand => h1 hand.2), if_pos (Or.inl h2)]
    · obtain ⟨hF1, hF2, hMC⟩ := matchPass_swap_flags s1 s2
      obtain ⟨hl1a, hl2a, hc1a, hc2a⟩ := matchPass_good s1 s2
      obtain ⟨hl1b, hl2b, hc1b, hc2b⟩ := matchPass_good s2 s1
      have hcc12 : ((matchPass s1 s2).s1M.drop 0).count true ≤
          ((matchPass s1 s2).s2M.drop 0).count true := by
        rw [List.drop_zero, List.drop_zero, hc1a, hc2a]
      have hT12 := transLoop_hamming hl1a hl2a s1.length 0 0 0 (by omega) hcc12
      have hcc21 : ((matchPass s2 s1).s1M.drop 0).count true ≤
          ((matchPass s2 s1).s2M.drop 0).count true := by
        rw [List.drop_zero, List.drop_zero, hc1b, hc2b]
      have hT21 := transLoop_hamming hl1b hl2b s2.length 0 0 0 (by omega) hcc21
      simp only [List.drop_zero, Nat.zero_add] at hT12 hT21
      simp only [jaroWinkler]
      rw [if_neg (show ¬(s1.length = 0 ∧ s2.length = 0) from fun hand => h1 hand.1),
        if_neg (show ¬(s1.length = 0 ∨ s2.length = 0) from fun hor => hor.elim h1 h2),
        if_neg (show ¬(s2.length = 0 ∧ s1.length = 0) from fun hand => h2 hand.1),
        if_neg (show ¬(s2.length = 0 ∨ s1.length = 0) from fun hor => hor.elim h2 h1)]
      rw [List.range_eq_range' s1.length, List.range_eq_range' s2.length]
      rw [hT12, hT21]
      simp only [Option.getD_some]
      have hham : hamming (maskChars s2 (matchPass s2 s1).s1M)
          (maskChars s1 (matchPass s2 s1).s2M) =
          hamming (maskChars s1 (matchPass s1 s2).s1M)
            (maskChars s2 (matchPass s1 s2).s2M) := by
        rw [← hF2, ← hF1, hamming_comm]
      by_cases hmc : (matchPass s1 s2).mcount = 0
      · rw [if_pos hmc,
          if_pos (show (matchPass s2 s1).mcount = 0 from by rw [← hMC]; exact hmc)]
      · rw [if_neg hmc,
          if_neg (show ¬(matchPass s2 s1).mcount = 0 from by
            rw [← hMC]; exact hmc)]
        rw [hham, ← hMC, prefLen_comm s2 s1 4]
        ring

end CheckSim
